import Mathlib

/-!
Verification of the workflow dependency sorter of `test_workflow_sorting.py`
(`get_sorted_workflow_nodes` and `should_show_progress`).

The Python values flowing through the sorter (a workflow is a JSON-like dict
of node descriptions) are shallowly embedded as `PyVal`.  A Python `dict` is
modelled as an insertion-ordered association list with string keys; a real
Python dict cannot hold two equal keys, so general theorems carry a `Nodup`
hypothesis on the key list.  Code that can raise a Python exception is
modelled in `Except Unit`.
-/

/-- Embedded Python value (the shapes reaching the sorter). -/
inductive PyVal where
  | int : Int → PyVal
  | str : String → PyVal
  | list : List PyVal → PyVal
  | dict : List (String × PyVal) → PyVal

mutual

/-- Python `repr` (approximated: string escaping is not modelled; the
sorter only ever applies `str` to ints and strings in the claims). -/
def pyRepr : PyVal → String
  | .int n => toString n
  | .str s => "'" ++ s ++ "'"
  | .list l => "[" ++ pyReprList l ++ "]"
  | .dict d => "\x7b" ++ pyReprDict d ++ "\x7d"

def pyReprList : List PyVal → String
  | [] => ""
  | [v] => pyRepr v
  | v :: w :: rest => pyRepr v ++ ", " ++ pyReprList (w :: rest)

def pyReprDict : List (String × PyVal) → String
  | [] => ""
  | [(k, v)] => "'" ++ k ++ "': " ++ pyRepr v
  | (k, v) :: p :: rest => "'" ++ k ++ "': " ++ pyRepr v ++ ", " ++ pyReprDict (p :: rest)

end

/-- Python `str()` as used by `str(input_value[0])`. -/
def pyStr : PyVal → String
  | .str s => s
  | v => pyRepr v

/-- Python `key in d` on a dict. -/
def dictHasKey (d : List (String × PyVal)) (k : String) : Bool :=
  d.any (fun p => p.1 == k)

/-- Python `d.get(key)` / `d[key]` on a dict (`none` when the key is absent). -/
def dictGet (d : List (String × PyVal)) (k : String) : Option PyVal :=
  (d.find? (fun p => p.1 == k)).map (fun p => p.2)

/-- One entry of the sorter's `nodes` list (the Python `node_info` dict). -/
structure NodeInfo where
  nodeId : String
  classType : PyVal
  nodeTitle : PyVal
  dependencies : List String

/-- The dependency-collection loop of lines 26-31: every input value that is
a Python list of length at least 2 whose first element stringifies to a key
of the workflow appends that string to `dependencies`. -/
def collectDeps (workflow : List (String × PyVal)) (inputs : List (String × PyVal)) : List String :=
  inputs.foldl
    (fun deps kv =>
      match kv.2 with
      | .list (x :: _ :: _) =>
          let dep_node_id := pyStr x
          if dictHasKey workflow dep_node_id then deps ++ [dep_node_id] else deps
      | _ => deps)
    []

/-- `node_data.get("inputs", {})` followed by iterating `.items()`: a present
non-dict value raises (AttributeError) when iterated. -/
def getInputs (d : List (String × PyVal)) : Except Unit (List (String × PyVal)) :=
  match dictGet d "inputs" with
  | none => .ok []
  | some (.dict inputs) => .ok inputs
  | some _ => .error ()

/-- `node_data.get("_meta", {}).get("title", class_type)`: a present non-dict
`_meta` value has no `.get`, which raises. -/
def getTitle (d : List (String × PyVal)) (classType : PyVal) : Except Unit PyVal :=
  match dictGet d "_meta" with
  | none => .ok classType
  | some (.dict m) => .ok ((dictGet m "title").getD classType)
  | some _ => .error ()

/-- Lines 20-40 for one workflow entry: skip entries that are not dicts with
a `class_type` key; otherwise extract dependencies, class type and title. -/
def buildNode (workflow : List (String × PyVal)) (node_id : String) :
    PyVal → Except Unit (Option NodeInfo)
  | .dict d =>
      match dictGet d "class_type" with
      | some classType =>
          match getInputs d with
          | .error e => .error e
          | .ok inputs =>
              match getTitle d classType with
              | .error e => .error e
              | .ok title =>
                  .ok (some { nodeId := node_id, classType := classType,
                              nodeTitle := title,
                              dependencies := collectDeps workflow inputs })
      | none => .ok none
  | _ => .ok none

/-- The whole first pass (lines 20-40) over the workflow's items. -/
def buildNodes (workflow : List (String × PyVal)) :
    List (String × PyVal) → Except Unit (List NodeInfo)
  | [] => .ok []
  | (node_id, node_data) :: rest =>
      match buildNode workflow node_id node_data with
      | .error e => .error e
      | .ok none => buildNodes workflow rest
      | .ok (some n) =>
          match buildNodes workflow rest with
          | .error e => .error e
          | .ok ns => .ok (n :: ns)

/-- The `node_dependencies` dict, whose insertion order mirrors `nodes`. -/
def depMap (nodes : List NodeInfo) : List (String × List String) :=
  nodes.map (fun n => (n.nodeId, n.dependencies))

/-- `node_dependencies.get(node_id, [])`. -/
def lookupDeps (nd : List (String × List String)) (id : String) : List String :=
  match nd.find? (fun p => p.1 == id) with
  | some p => p.2
  | none => []

/-- `dep_id in node_dependencies`. -/
def ndContains (nd : List (String × List String)) (id : String) : Bool :=
  nd.any (fun p => p.1 == id)

/-- The linear search of lines 65-68 (`for node in nodes: ... break`). -/
def findNode (nodes : List NodeInfo) (id : String) : Option NodeInfo :=
  nodes.find? (fun n => n.nodeId == id)

/-- The mutable state of the traversal: `sorted_nodes`, `visited`,
`temp_visited`.  The two Python sets are modelled as lists used purely
through membership; elements are only added when absent. -/
structure SortState where
  sortedNodes : List NodeInfo
  visited : List String
  tempVisited : List String

/-- The dependency loop of lines 57-59 (`for dep_id in ...: if dep_id in
node_dependencies: visit_node(dep_id)`), abstracted over the visitor. -/
def visitDeps (nd : List (String × List String)) (visit : String → SortState → SortState) :
    List String → SortState → SortState
  | [], st => st
  | dep_id :: rest, st =>
      let st' := if ndContains nd dep_id then visit dep_id st else st
      visitDeps nd visit rest st'

/-- `visit_node` (lines 47-68).  The Python recursion is bounded in depth by
the number of distinct node ids on the `temp_visited` path, so a fuel of
`nodes.length + 1` (supplied by `topoSort`) makes the embedding total
without changing its behaviour. -/
def visitNode (nodes : List NodeInfo) : Nat → String → SortState → SortState
  | 0, _, st => st
  | fuel + 1, node_id, st =>
      if node_id ∈ st.tempVisited then st
      else if node_id ∈ st.visited then st
      else
        let st1 : SortState := { st with tempVisited := node_id :: st.tempVisited }
        let st2 := visitDeps (depMap nodes) (fun d s => visitNode nodes fuel d s)
          (lookupDeps (depMap nodes) node_id) st1
        let st3 : SortState := { st2 with
          tempVisited := st2.tempVisited.erase node_id,
          visited := node_id :: st2.visited }
        match findNode nodes node_id with
        | some n => { st3 with sortedNodes := st3.sortedNodes ++ [n] }
        | none => st3

/-- Lexicographic comparison of code-point lists, Python's string `<=`. -/
def charsLe : List Char → List Char → Bool
  | [], _ => true
  | _ :: _, [] => false
  | c :: cs, d :: ds =>
      if c.toNat = d.toNat then charsLe cs ds else decide (c.toNat < d.toNat)

/-- Python string comparison: lexicographic on code points. -/
def strLe (a b : String) : Bool := charsLe a.data b.data

/-- `sorted(node_ids)`: Python sorts strings ascending lexicographically by
code point; any sort with that total order yields Python's result. -/
def sortIds (ids : List String) : List String :=
  List.insertionSort (fun a b : String => strLe a b = true) ids

/-- The topological-sort phase (lines 42-77) run on the collected nodes. -/
def topoSort (nodes : List NodeInfo) : List NodeInfo :=
  let node_ids := (depMap nodes).map (fun p => p.1)
  let final := (sortIds node_ids).foldl
    (fun st node_id =>
      if node_id ∈ st.visited then st else visitNode nodes (nodes.length + 1) node_id st)
    { sortedNodes := [], visited := [], tempVisited := [] }
  final.sortedNodes

/-- One entry of the fallback loop (lines 82-90): same validity test and
title computation, empty dependency list. -/
def fallbackNode (node_id : String) : PyVal → Except Unit (Option NodeInfo)
  | .dict d =>
      match dictGet d "class_type" with
      | some classType =>
          match getTitle d classType with
          | .error e => .error e
          | .ok title =>
              .ok (some { nodeId := node_id, classType := classType,
                          nodeTitle := title, dependencies := [] })
      | none => .ok none
  | _ => .ok none

/-- The whole fallback pass of the `except` handler (lines 79-91).  An
exception raised here propagates to the caller. -/
def fallbackNodes : List (String × PyVal) → Except Unit (List NodeInfo)
  | [] => .ok []
  | (node_id, node_data) :: rest =>
      match fallbackNode node_id node_data with
      | .error e => .error e
      | .ok none => fallbackNodes rest
      | .ok (some n) =>
          match fallbackNodes rest with
          | .error e => .error e
          | .ok ns => .ok (n :: ns)

/-- `get_sorted_workflow_nodes` (lines 13-91): the try-block either completes
(first pass then topological sort) or any raised exception lands in the
fallback pass, whose own exceptions escape to the caller (`.error`). -/
def get_sorted_workflow_nodes (workflow : List (String × PyVal)) :
    Except Unit (List NodeInfo) :=
  match buildNodes workflow workflow with
  | .ok nodes => .ok (topoSort nodes)
  | .error _ => fallbackNodes workflow

/-- `should_show_progress` (lines 203-209): `list.index` is the first index
of the id, and a `ValueError` (id absent) yields `True`. -/
def should_show_progress (node_id : String) (workflow_order : List String)
    (current_index : Int) : Bool :=
  match workflow_order.indexOf? node_id with
  | some node_index => decide ((node_index : Int) ≥ current_index)
  | none => true

/-! ## Derived notions used by the specification claims -/

/-- `isinstance(node_data, dict) and "class_type" in node_data` (line 21). -/
def isValidEntry : PyVal → Bool
  | .dict d => dictHasKey d "class_type"
  | _ => false

/-- The ids of the valid entries of a workflow, in insertion order. -/
def validIds (workflow : List (String × PyVal)) : List String :=
  (workflow.filter (fun kv => isValidEntry kv.2)).map (fun kv => kv.1)

/-- The dependency contributed by one input value (the body of lines 27-31
as a partial function): a Python list of length `>= 2` whose stringified
first element is a workflow key contributes that string. -/
def refDep (workflow : List (String × PyVal)) : PyVal → Option String
  | .list (x :: _ :: _) =>
      if dictHasKey workflow (pyStr x) then some (pyStr x) else none
  | _ => none

/-- Modelled from the spec: a *Reference* is a TWO-element pair
`(sourceNodeId: string, outputSlot: integer)`, contributing an edge exactly
when `sourceNodeId` is a key of the graph.  (Used to compare the claimed
contribution rule with the code's `refDep`.) -/
def specRefPair (workflow : List (String × PyVal)) : PyVal → Option String
  | .list [.str s, .int _] => if dictHasKey workflow s then some s else none
  | _ => none

/-- The key list of `node_dependencies` (equals the valid-node ids). -/
def keyList (nodes : List NodeInfo) : List String :=
  (depMap nodes).map (fun p => p.1)

/-- Dependency edge `a → b` over the collected nodes: consumer `b`'s
recorded dependency list contains `a` (so `a` should run before `b`). -/
@[reducible] def DepEdge (nodes : List NodeInfo) (a b : String) : Prop :=
  a ∈ lookupDeps (depMap nodes) b

/-- Path `b →* a` following dependency edges; an edge `a → b` lies on a
cycle exactly when `Reach nodes b a` holds. -/
def Reach (nodes : List NodeInfo) : String → String → Prop :=
  Relation.ReflTransGen (fun x y => DepEdge nodes x y)

/-- Graph-level dependency edge stated on the raw workflow: valid entry `b`
has an input contributing a dependency on `a`. -/
def wfEdge (workflow : List (String × PyVal)) (a b : String) : Prop :=
  ∃ d inputs, (b, PyVal.dict d) ∈ workflow ∧ (dictGet d "class_type").isSome ∧
    getInputs d = .ok inputs ∧ a ∈ collectDeps workflow inputs

/-- The fuel bound: more fuel than there are keys left outside the current
recursion path, so `visitNode` never hits its artificial fuel-0 branch. -/
def Enough (nodes : List NodeInfo) (fuel : Nat) (st : SortState) : Prop :=
  ((keyList nodes).toFinset \ st.tempVisited.toFinset).card < fuel

/-- Structural invariant of the traversal state: `visited` is exactly the
ids of `sorted_nodes` (newest first), without duplicates, all of them keys,
and every emitted node comes from `nodes`. -/
def VSInv (nodes : List NodeInfo) (st : SortState) : Prop :=
  st.visited = (st.sortedNodes.map (fun n => n.nodeId)).reverse ∧
  st.visited.Nodup ∧
  (∀ x ∈ st.visited, x ∈ keyList nodes) ∧
  (∀ n ∈ st.sortedNodes, n ∈ nodes)

/-- Ordering invariant: wherever a node sits in the emitted list, every
dependency of it that is a valid node and does not close a cycle was
emitted earlier. -/
def OrderedOK (nodes : List NodeInfo) (l : List NodeInfo) : Prop :=
  ∀ l1 x l2, l = l1 ++ x :: l2 → ∀ a, DepEdge nodes a x.nodeId →
    a ∈ keyList nodes → ¬ Reach nodes x.nodeId a → a ∈ l1.map (fun n => n.nodeId)

/-- Everything a traversal step guarantees about its output state relative
to its input state. -/
def VisitOut (nodes : List NodeInfo) (st r : SortState) : Prop :=
  r.tempVisited = st.tempVisited ∧
  VSInv nodes r ∧
  OrderedOK nodes r.sortedNodes ∧
  (∀ x ∈ st.visited, x ∈ r.visited) ∧
  (∀ x ∈ st.tempVisited, x ∈ r.visited → x ∈ st.visited) ∧
  (∃ tail, r.sortedNodes = st.sortedNodes ++ tail)

/-! ## Concrete workflows used by the claims -/

/-- The `MOCK_WORKFLOW` of lines 94-147. -/
def MOCK_WORKFLOW : List (String × PyVal) := [
  ("1", .dict [("class_type", .str "CLIPTextEncode"),
    ("inputs", .dict [("text", .str "test prompt"), ("clip", .list [.str "2", .int 0])]),
    ("_meta", .dict [("title", .str "Positive Prompt")])]),
  ("2", .dict [("class_type", .str "CheckpointLoaderSimple"),
    ("inputs", .dict [("ckpt_name", .str "model.safetensors")]),
    ("_meta", .dict [("title", .str "Load Checkpoint")])]),
  ("3", .dict [("class_type", .str "KSampler"),
    ("inputs", .dict [("seed", .int 42), ("steps", .int 20),
      ("model", .list [.str "2", .int 0]), ("positive", .list [.str "1", .int 0]),
      ("negative", .list [.str "4", .int 0])]),
    ("_meta", .dict [("title", .str "K-Sampler")])]),
  ("4", .dict [("class_type", .str "CLIPTextEncode"),
    ("inputs", .dict [("text", .str "negative prompt"), ("clip", .list [.str "2", .int 0])]),
    ("_meta", .dict [("title", .str "Negative Prompt")])]),
  ("5", .dict [("class_type", .str "VAEDecode"),
    ("inputs", .dict [("samples", .list [.str "3", .int 0]), ("vae", .list [.str "2", .int 2])]),
    ("_meta", .dict [("title", .str "VAE Decoder")])])]

/-- Two valid nodes depending on each other: "1" needs "2", "2" needs "1". -/
def cyclicWf : List (String × PyVal) := [
  ("1", .dict [("class_type", .str "A"),
    ("inputs", .dict [("x", .list [.str "2", .int 0])])]),
  ("2", .dict [("class_type", .str "B"),
    ("inputs", .dict [("y", .list [.str "1", .int 0])])])]

/-- An invalid entry "1" (a bare string) referenced by the valid node "2". -/
def c1Wf : List (String × PyVal) := [
  ("1", .str "junk"),
  ("2", .dict [("class_type", .str "X"),
    ("inputs", .dict [("x", .list [.str "1", .int 0])])])]

/-- The nodes the first pass collects from `c1Wf` (also its sorted output). -/
def c1Nodes : List NodeInfo :=
  [{ nodeId := "2", classType := .str "X", nodeTitle := .str "X", dependencies := ["1"] }]

/-- A small acyclic workflow: "1" depends on "2". -/
def witWf : List (String × PyVal) := [
  ("1", .dict [("class_type", .str "A"),
    ("inputs", .dict [("x", .list [.str "2", .int 0])])]),
  ("2", .dict [("class_type", .str "B"), ("inputs", .dict [])])]

/-- The nodes built from `witWf`. -/
def witNodes : List NodeInfo :=
  [{ nodeId := "1", classType := .str "A", nodeTitle := .str "A", dependencies := ["2"] },
   { nodeId := "2", classType := .str "B", nodeTitle := .str "B", dependencies := [] }]

/-- The sorter's output on `witWf`. -/
def witOut : List NodeInfo :=
  [{ nodeId := "2", classType := .str "B", nodeTitle := .str "B", dependencies := [] },
   { nodeId := "1", classType := .str "A", nodeTitle := .str "A", dependencies := ["2"] }]

/-- A valid node whose `_meta` is not a dict: both the try-block and the
fallback handler evaluate `.get` on it and raise. -/
def metaWf : List (String × PyVal) := [
  ("1", .dict [("class_type", .str "X"), ("_meta", .int 3)])]

/-- Same failure shape with a string `_meta`, the input for claim C3. -/
def c3Wf : List (String × PyVal) := [
  ("1", .dict [("class_type", .str "X"), ("_meta", .str "bad")])]

/-- Node "1" references node "2" through two different inputs. -/
def dupWf : List (String × PyVal) := [
  ("1", .dict [("class_type", .str "A"),
    ("inputs", .dict [("x", .list [.str "2", .int 0]), ("y", .list [.str "2", .int 1])])]),
  ("2", .dict [("class_type", .str "B"), ("inputs", .dict [])])]

/-- The nodes built from `dupWf`: "1" records `["2", "2"]`. -/
def dupNodes : List NodeInfo :=
  [{ nodeId := "1", classType := .str "A", nodeTitle := .str "A", dependencies := ["2", "2"] },
   { nodeId := "2", classType := .str "B", nodeTitle := .str "B", dependencies := [] }]

/-- Inputs of node "1" of `c5Wf`: a THREE-element list referencing "2". -/
def c5Inputs : List (String × PyVal) := [("x", .list [.str "2", .int 0, .int 0])]

/-- Node "1" carries a three-element reference-like input value. -/
def c5Wf : List (String × PyVal) := [
  ("1", .dict [("class_type", .str "A"), ("inputs", .dict c5Inputs)]),
  ("2", .dict [("class_type", .str "B"), ("inputs", .dict [])])]

/-- A dependency cycle ("1" and "2" need each other) plus a non-dict
`_meta` on node "1". -/
def c6Wf : List (String × PyVal) := [
  ("1", .dict [("class_type", .str "A"),
    ("inputs", .dict [("x", .list [.str "2", .int 0])]), ("_meta", .int 7)]),
  ("2", .dict [("class_type", .str "B"),
    ("inputs", .dict [("y", .list [.str "1", .int 0])])])]

/-- The member of `dupNodes` that records the duplicated dependency. -/
def dupNode1 : NodeInfo :=
  { nodeId := "1", classType := .str "A", nodeTitle := .str "A", dependencies := ["2", "2"] }

/-- The sorter's output on `cyclicWf`. -/
def cyclicOut : List NodeInfo :=
  [{ nodeId := "2", classType := .str "B", nodeTitle := .str "B", dependencies := ["1"] },
   { nodeId := "1", classType := .str "A", nodeTitle := .str "A", dependencies := ["2"] }]

/-- Inputs whose reference has an integer first element. -/
def c10Inputs : List (String × PyVal) := [("x", .list [.int 2, .int 0])]

/-- Node "1" references node "2" by the Python int `2`, not the string. -/
def c10Wf : List (String × PyVal) := [
  ("1", .dict [("class_type", .str "A"), ("inputs", .dict c10Inputs)]),
  ("2", .dict [("class_type", .str "B"), ("inputs", .dict [])])]

/-! ## Basic lemmas about the dictionary helpers -/

theorem ndContains_iff (nd : List (String × List String)) (id : String) :
    ndContains nd id = true ↔ id ∈ nd.map (fun p => p.1) := by
  unfold ndContains
  rw [List.any_eq_true]
  constructor
  · rintro ⟨p, hp, he⟩
    exact List.mem_map.mpr ⟨p, hp, by simpa using he⟩
  · intro h
    obtain ⟨p, hp, he⟩ := List.mem_map.mp h
    exact ⟨p, hp, by simp [he]⟩

theorem mem_lookupDeps {nd : List (String × List String)} {a b : String}
    (h : a ∈ lookupDeps nd b) : ∃ l, (b, l) ∈ nd ∧ a ∈ l := by
  unfold lookupDeps at h
  cases hf : nd.find? (fun p => p.1 == b) with
  | none => rw [hf] at h; simp at h
  | some p =>
      rw [hf] at h
      have hmem := List.mem_of_find?_eq_some hf
      have hpb := List.find?_some hf
      have : p.1 = b := by simpa using hpb
      refine ⟨p.2, ?_, h⟩
      rw [← this]
      exact hmem

theorem lookupDeps_key {nd : List (String × List String)} {a b : String}
    (h : a ∈ lookupDeps nd b) : b ∈ nd.map (fun p => p.1) := by
  obtain ⟨l, hmem, _⟩ := mem_lookupDeps h
  exact List.mem_map.mpr ⟨(b, l), hmem, rfl⟩

theorem keyList_eq_map (nodes : List NodeInfo) :
    keyList nodes = nodes.map (fun n => n.nodeId) := by
  simp [keyList, depMap, List.map_map]

theorem keyList_length (nodes : List NodeInfo) :
    (keyList nodes).length = nodes.length := by
  simp [keyList, depMap]

theorem findNode_of_mem {nodes : List NodeInfo} {id : String}
    (h : id ∈ keyList nodes) :
    ∃ n, findNode nodes id = some n ∧ n.nodeId = id ∧ n ∈ nodes := by
  rw [keyList_eq_map] at h
  obtain ⟨n, hn, hid⟩ := List.mem_map.mp h
  have hsome : (nodes.find? (fun m => m.nodeId == id)).isSome := by
    rw [List.find?_isSome]
    exact ⟨n, hn, by simp [hid]⟩
  cases hf : nodes.find? (fun m => m.nodeId == id) with
  | none => rw [hf] at hsome; simp at hsome
  | some m =>
      refine ⟨m, hf, ?_, List.mem_of_find?_eq_some hf⟩
      have := List.find?_some hf
      simpa using this

/-! ## The recursion path (`temp_visited`) is restored by every visit -/

theorem visitDeps_temp (nd : List (String × List String))
    (visit : String → SortState → SortState)
    (h : ∀ d s, (visit d s).tempVisited = s.tempVisited) :
    ∀ (l : List String) (st : SortState),
      (visitDeps nd visit l st).tempVisited = st.tempVisited := by
  intro l
  induction l with
  | nil => intro st; rfl
  | cons d rest ih =>
      intro st
      show (visitDeps nd visit rest _).tempVisited = _
      rw [ih]
      by_cases hc : ndContains nd d
      · simp [hc, h]
      · simp [hc]

theorem visitNode_temp (nodes : List NodeInfo) :
    ∀ (fuel : Nat) (id : String) (st : SortState),
      (visitNode nodes fuel id st).tempVisited = st.tempVisited := by
  intro fuel
  induction fuel with
  | zero => intro id st; rfl
  | succ fuel ih =>
      intro id st
      by_cases h1 : id ∈ st.tempVisited
      · simp [visitNode, h1]
      · by_cases h2 : id ∈ st.visited
        · simp [visitNode, h1, h2]
        · have hd := visitDeps_temp (depMap nodes)
            (fun d s => visitNode nodes fuel d s) ih
            (lookupDeps (depMap nodes) id) { st with tempVisited := id :: st.tempVisited }
          cases hf : findNode nodes id with
          | some n => simp [visitNode, h1, h2, hf, hd, List.erase_cons_head]
          | none => simp [visitNode, h1, h2, hf, hd, List.erase_cons_head]

/-! ## Fuel accounting and composition of traversal steps -/

theorem Enough_congr {nodes : List NodeInfo} {fuel : Nat} {st st' : SortState}
    (h : st'.tempVisited = st.tempVisited) (he : Enough nodes fuel st) :
    Enough nodes fuel st' := by
  unfold Enough at *
  rw [h]
  exact he

theorem Enough_push {nodes : List NodeInfo} {fuel : Nat} {id : String} {st : SortState}
    (he : Enough nodes (fuel + 1) st) (hk : id ∈ keyList nodes)
    (ht : id ∉ st.tempVisited) :
    Enough nodes fuel { st with tempVisited := id :: st.tempVisited } := by
  unfold Enough at *
  have hmem : id ∈ (keyList nodes).toFinset \ st.tempVisited.toFinset := by
    rw [Finset.mem_sdiff]
    exact ⟨List.mem_toFinset.mpr hk, fun hc => ht (List.mem_toFinset.mp hc)⟩
  have hpos : 1 ≤ ((keyList nodes).toFinset \ st.tempVisited.toFinset).card :=
    Finset.card_pos.mpr ⟨id, hmem⟩
  have : (keyList nodes).toFinset \ (id :: st.tempVisited).toFinset
      = ((keyList nodes).toFinset \ st.tempVisited.toFinset).erase id := by
    rw [List.toFinset_cons, Finset.sdiff_insert]
  rw [this, Finset.card_erase_of_mem hmem]
  omega

theorem visitOut_refl {nodes : List NodeInfo} {st : SortState}
    (h1 : VSInv nodes st) (h2 : OrderedOK nodes st.sortedNodes) :
    VisitOut nodes st st :=
  ⟨rfl, h1, h2, fun _ hx => hx, fun _ _ hx => hx, ⟨[], by simp⟩⟩

theorem visitOut_trans {nodes : List NodeInfo} {st m r : SortState}
    (a : VisitOut nodes st m) (b : VisitOut nodes m r) : VisitOut nodes st r := by
  obtain ⟨at1, av, ao, am, ap, ta, hta⟩ := a
  obtain ⟨bt1, bv, bo, bm, bp, tb, htb⟩ := b
  refine ⟨bt1.trans at1, bv, bo, fun x hx => bm x (am x hx), ?_, ⟨ta ++ tb, ?_⟩⟩
  · intro x hxt hxr
    have hxm : x ∈ m.tempVisited := at1 ▸ hxt
    exact ap x hxt (bp x hxm hxr)
  · rw [htb, hta, List.append_assoc]

theorem append_singleton_split {α : Type _} {l l1 l2 : List α} {x n : α}
    (h : l ++ [n] = l1 ++ x :: l2) :
    (∃ l2', l = l1 ++ x :: l2' ∧ l2 = l2' ++ [n]) ∨ (l1 = l ∧ x = n ∧ l2 = []) := by
  rcases List.eq_nil_or_concat' l2 with rfl | ⟨L, b, rfl⟩
  · right
    have hinj := List.append_inj' h (by simp)
    refine ⟨hinj.1.symm, ?_, rfl⟩
    have := hinj.2
    simp at this
    exact this.symm
  · left
    have h' : l ++ [n] = (l1 ++ x :: L) ++ [b] := by
      rw [h]
      simp
    have hinj := List.append_inj' h' (by simp)
    have hnb : n = b := by
      have := hinj.2
      simpa using this
    exact ⟨L, hinj.1, by rw [hnb]⟩

/-! ## Main invariant preservation for the dependency loop -/

theorem visitDeps_main (nodes : List NodeInfo) (fuel : Nat)
    (IH : ∀ (id : String) (st : SortState),
      Enough nodes fuel st → id ∈ keyList nodes →
      (∀ t ∈ st.tempVisited, Reach nodes id t) →
      VSInv nodes st → OrderedOK nodes st.sortedNodes →
      VisitOut nodes st (visitNode nodes fuel id st) ∧
      (id ∈ st.tempVisited ∨ id ∈ (visitNode nodes fuel id st).visited)) :
    ∀ (l : List String) (st : SortState),
      Enough nodes fuel st →
      (∀ d ∈ l, ∀ t ∈ st.tempVisited, Reach nodes d t) →
      VSInv nodes st → OrderedOK nodes st.sortedNodes →
      VisitOut nodes st (visitDeps (depMap nodes) (fun d s => visitNode nodes fuel d s) l st) ∧
      (∀ d ∈ l, d ∈ keyList nodes → d ∉ st.tempVisited →
        d ∈ (visitDeps (depMap nodes) (fun d s => visitNode nodes fuel d s) l st).visited) := by
  intro l
  induction l with
  | nil =>
      intro st _ _ hV hO
      exact ⟨visitOut_refl hV hO, by simp⟩
  | cons d rest ih =>
      intro st hE hT hV hO
      by_cases hc : ndContains (depMap nodes) d = true
      · have hdk : d ∈ keyList nodes := (ndContains_iff _ _).mp hc
        obtain ⟨ho1, hc1⟩ := IH d st hE hdk (hT d (List.mem_cons_self d rest)) hV hO
        have hstep : visitDeps (depMap nodes) (fun d s => visitNode nodes fuel d s) (d :: rest) st
            = visitDeps (depMap nodes) (fun d s => visitNode nodes fuel d s) rest
              (visitNode nodes fuel d st) := by
          show visitDeps _ _ rest (if ndContains (depMap nodes) d then _ else _) = _
          rw [if_pos hc]
        have htemp1 : (visitNode nodes fuel d st).tempVisited = st.tempVisited := ho1.1
        have hrest := ih (visitNode nodes fuel d st) (Enough_congr htemp1 hE)
          (fun e he t ht => hT e (List.mem_cons_of_mem d he) t (htemp1 ▸ ht))
          ho1.2.1 ho1.2.2.1
        rw [hstep]
        refine ⟨visitOut_trans ho1 hrest.1, ?_⟩
        intro e he hek hent
        rcases List.mem_cons.mp he with rfl | hetl
        · rcases hc1 with hin | hvis
          · exact absurd hin hent
          · exact hrest.1.2.2.2.1 e hvis
        · exact hrest.2 e hetl hek (fun hx => hent (htemp1 ▸ hx))
      · have hstep : visitDeps (depMap nodes) (fun d s => visitNode nodes fuel d s) (d :: rest) st
            = visitDeps (depMap nodes) (fun d s => visitNode nodes fuel d s) rest st := by
          show visitDeps _ _ rest (if ndContains (depMap nodes) d then _ else _) = _
          rw [if_neg hc]
        have hrest := ih st hE (fun e he t ht => hT e (List.mem_cons_of_mem d he) t ht) hV hO
        rw [hstep]
        refine ⟨hrest.1, ?_⟩
        intro e he hek hent
        rcases List.mem_cons.mp he with rfl | hetl
        · exact absurd ((ndContains_iff _ _).mpr hek) hc
        · exact hrest.2 e hetl hek hent

/-! ## Main invariant preservation for `visit_node` -/

theorem visitNode_main (nodes : List NodeInfo) :
    ∀ (fuel : Nat) (id : String) (st : SortState),
      Enough nodes fuel st → id ∈ keyList nodes →
      (∀ t ∈ st.tempVisited, Reach nodes id t) →
      VSInv nodes st → OrderedOK nodes st.sortedNodes →
      VisitOut nodes st (visitNode nodes fuel id st) ∧
      (id ∈ st.tempVisited ∨ id ∈ (visitNode nodes fuel id st).visited) := by
  intro fuel
  induction fuel with
  | zero =>
      intro id st hE _ _ _ _
      unfold Enough at hE
      omega
  | succ fuel ih =>
      intro id st hE hk hT hV hO
      by_cases h1 : id ∈ st.tempVisited
      · have hr : visitNode nodes (fuel + 1) id st = st := by
          simp [visitNode, h1]
        rw [hr]
        exact ⟨visitOut_refl hV hO, Or.inl h1⟩
      by_cases h2 : id ∈ st.visited
      · have hr : visitNode nodes (fuel + 1) id st = st := by
          simp [visitNode, h1, h2]
        rw [hr]
        exact ⟨visitOut_refl hV hO, Or.inr h2⟩
      obtain ⟨n, hfind, hnid, hnmem⟩ := findNode_of_mem hk
      have hE1 : Enough nodes fuel { st with tempVisited := id :: st.tempVisited } :=
        Enough_push hE hk h1
      have hT1 : ∀ d ∈ lookupDeps (depMap nodes) id,
          ∀ t ∈ ({ st with tempVisited := id :: st.tempVisited } : SortState).tempVisited,
            Reach nodes d t := by
        intro d hd t ht
        have hedge : DepEdge nodes d id := hd
        rcases List.mem_cons.mp ht with rfl | htl
        · exact Relation.ReflTransGen.single hedge
        · exact Relation.ReflTransGen.head hedge (hT t htl)
      obtain ⟨hoD, hcD⟩ := visitDeps_main nodes fuel ih (lookupDeps (depMap nodes) id)
        { st with tempVisited := id :: st.tempVisited } hE1 hT1 hV hO
      set st2 := visitDeps (depMap nodes) (fun d s => visitNode nodes fuel d s)
        (lookupDeps (depMap nodes) id) { st with tempVisited := id :: st.tempVisited }
        with hst2
      have htemp2 : st2.tempVisited = id :: st.tempVisited := hoD.1
      have hIdNot2 : id ∉ st2.visited := by
        intro hin
        exact h2 (hoD.2.2.2.2.1 id (List.mem_cons_self id st.tempVisited) hin)
      have hr : visitNode nodes (fuel + 1) id st
          = { sortedNodes := st2.sortedNodes ++ [n], visited := id :: st2.visited,
              tempVisited := st2.tempVisited.erase id } := by
        simp [visitNode, h1, h2, hfind, ← hst2]
      obtain ⟨hv1, hv2, hv3, hv4⟩ := hoD.2.1
      obtain ⟨tl2, htl2⟩ := hoD.2.2.2.2.2
      rw [hr]
      refine ⟨⟨?_, ⟨?_, ?_, ?_, ?_⟩, ?_, ?_, ?_, ?_⟩, Or.inr (List.mem_cons_self _ _)⟩
      · -- the recursion path is restored
        show st2.tempVisited.erase id = st.tempVisited
        rw [htemp2, List.erase_cons_head]
      · -- visited stays the reversed id list of the emitted nodes
        show id :: st2.visited = ((st2.sortedNodes ++ [n]).map (fun n => n.nodeId)).reverse
        rw [List.map_append, List.reverse_append]
        simp [hnid, ← hv1]
      · -- visited stays duplicate-free
        exact List.nodup_cons.mpr ⟨hIdNot2, hv2⟩
      · -- visited ids are keys
        intro x hx
        rcases List.mem_cons.mp hx with rfl | hx2
        · exact hk
        · exact hv3 x hx2
      · -- emitted nodes come from `nodes`
        intro m hm
        rcases List.mem_append.mp hm with hm1 | hm2
        · exact hv4 m hm1
        · rw [List.mem_singleton.mp hm2]
          exact hnmem
      · -- ordering invariant for the extended output
        intro l1 x l2 hsplit a hedge hak hnr
        have hsplit2 : st2.sortedNodes ++ [n] = l1 ++ x :: l2 := hsplit
        rcases append_singleton_split hsplit2 with ⟨l2', hl, _⟩ | ⟨hl1, hx, _⟩
        · exact hoD.2.2.1 l1 x l2' hl a hedge hak hnr
        · subst hx
          subst hl1
          have hedge' : a ∈ lookupDeps (depMap nodes) id := by
            rw [← hnid]
            exact hedge
          have hne : a ≠ id := by
            intro hcon
            apply hnr
            rw [hnid, hcon]
            exact Relation.ReflTransGen.refl
          have hnt : a ∉ st.tempVisited := by
            intro hcon
            apply hnr
            rw [hnid]
            exact hT a hcon
          have hnt1 : a ∉ ({ st with tempVisited := id :: st.tempVisited } : SortState).tempVisited := by
            intro hcon
            rcases List.mem_cons.mp hcon with h | h
            · exact hne h
            · exact hnt h
          have hvis : a ∈ st2.visited := hcD a hedge' hak hnt1
          rw [hv1, List.mem_reverse] at hvis
          exact hvis
      · -- visited only grows
        intro x hx
        exact List.mem_cons_of_mem id (hoD.2.2.2.1 x hx)
      · -- ids on the incoming path are not newly visited
        intro x hxt hxr
        rcases List.mem_cons.mp hxr with rfl | hx2
        · exact absurd hxt h1
        · exact hoD.2.2.2.2.1 x (List.mem_cons_of_mem id hxt) hx2
      · -- output only appended
        exact ⟨tl2 ++ [n], by rw [htl2, List.append_assoc]⟩

/-! ## The top-level loop over the sorted ids -/

theorem foldVisit_main (nodes : List NodeInfo) :
    ∀ (ids : List String) (st : SortState),
      (∀ i ∈ ids, i ∈ keyList nodes) → st.tempVisited = [] →
      VSInv nodes st → OrderedOK nodes st.sortedNodes →
      (ids.foldl (fun st node_id =>
          if node_id ∈ st.visited then st
          else visitNode nodes (nodes.length + 1) node_id st) st).tempVisited = [] ∧
      VSInv nodes (ids.foldl (fun st node_id =>
          if node_id ∈ st.visited then st
          else visitNode nodes (nodes.length + 1) node_id st) st) ∧
      OrderedOK nodes ((ids.foldl (fun st node_id =>
          if node_id ∈ st.visited then st
          else visitNode nodes (nodes.length + 1) node_id st) st)).sortedNodes ∧
      (∀ x ∈ st.visited, x ∈ (ids.foldl (fun st node_id =>
          if node_id ∈ st.visited then st
          else visitNode nodes (nodes.length + 1) node_id st) st).visited) ∧
      (∀ i ∈ ids, i ∈ (ids.foldl (fun st node_id =>
          if node_id ∈ st.visited then st
          else visitNode nodes (nodes.length + 1) node_id st) st).visited) := by
  intro ids
  induction ids with
  | nil =>
      intro st _ ht hV hO
      exact ⟨ht, hV, hO, fun _ hx => hx, by simp⟩
  | cons i rest ih =>
      intro st hks ht hV hO
      have hstep : (i :: rest).foldl (fun st node_id =>
          if node_id ∈ st.visited then st
          else visitNode nodes (nodes.length + 1) node_id st) st
          = rest.foldl (fun st node_id =>
          if node_id ∈ st.visited then st
          else visitNode nodes (nodes.length + 1) node_id st)
            (if i ∈ st.visited then st else visitNode nodes (nodes.length + 1) i st) := rfl
      by_cases hv : i ∈ st.visited
      · rw [hstep, if_pos hv]
        have hrest := ih st (fun x hx => hks x (List.mem_cons_of_mem i hx)) ht hV hO
        refine ⟨hrest.1, hrest.2.1, hrest.2.2.1, hrest.2.2.2.1, ?_⟩
        intro x hx
        rcases List.mem_cons.mp hx with rfl | hx2
        · exact hrest.2.2.2.1 x hv
        · exact hrest.2.2.2.2 x hx2
      · have hik : i ∈ keyList nodes := hks i (List.mem_cons_self i rest)
        have hE : Enough nodes (nodes.length + 1) st := by
          unfold Enough
          rw [ht]
          have h1 : (keyList nodes).toFinset \ ([] : List String).toFinset
              = (keyList nodes).toFinset := by simp
          rw [h1]
          have := List.toFinset_card_le (keyList nodes)
          rw [keyList_length] at this
          omega
        have hTc : ∀ t ∈ st.tempVisited, Reach nodes i t := by
          rw [ht]
          intro t htc
          exact absurd htc (List.not_mem_nil t)
        obtain ⟨hoV, hcV⟩ := visitNode_main nodes (nodes.length + 1) i st hE hik hTc hV hO
        have hiv : i ∈ (visitNode nodes (nodes.length + 1) i st).visited := by
          rcases hcV with hin | hvis
          · rw [ht] at hin
            exact absurd hin (List.not_mem_nil i)
          · exact hvis
        have ht' : (visitNode nodes (nodes.length + 1) i st).tempVisited = [] := by
          rw [hoV.1, ht]
        have hrest := ih (visitNode nodes (nodes.length + 1) i st)
          (fun x hx => hks x (List.mem_cons_of_mem i hx)) ht' hoV.2.1 hoV.2.2.1
        rw [hstep, if_neg hv]
        refine ⟨hrest.1, hrest.2.1, hrest.2.2.1, ?_, ?_⟩
        · intro x hx
          exact hrest.2.2.2.1 x (hoV.2.2.2.1 x hx)
        · intro x hx
          rcases List.mem_cons.mp hx with rfl | hx2
          · exact hrest.2.2.2.1 x hiv
          · exact hrest.2.2.2.2 x hx2

/-- Characterization of `topoSort`: the emitted nodes respect acyclic
dependencies, come from `nodes`, and their ids are exactly the keys. -/
theorem topoSort_spec (nodes : List NodeInfo) :
    OrderedOK nodes (topoSort nodes) ∧
    (∀ n ∈ topoSort nodes, n ∈ nodes) ∧
    ((topoSort nodes).map (fun n => n.nodeId)).Nodup ∧
    (∀ x, x ∈ (topoSort nodes).map (fun n => n.nodeId) ↔ x ∈ keyList nodes) := by
  have hids : ∀ i ∈ sortIds (keyList nodes), i ∈ keyList nodes := by
    intro i hi
    exact (List.perm_insertionSort _ (keyList nodes)).mem_iff.mp hi
  have hV0 : VSInv nodes { sortedNodes := [], visited := [], tempVisited := [] } := by
    refine ⟨rfl, List.nodup_nil, ?_, ?_⟩
    · intro x hx
      exact absurd hx (List.not_mem_nil x)
    · intro n hn
      exact absurd hn (List.not_mem_nil n)
  have hO0 : OrderedOK nodes ([] : List NodeInfo) := by
    intro l1 x l2 hsplit
    exact absurd hsplit.symm (by simp)
  have hmain := foldVisit_main nodes (sortIds (keyList nodes))
    { sortedNodes := [], visited := [], tempVisited := [] } hids rfl hV0 hO0
  obtain ⟨hv1, hv2, hv3, hv4⟩ := hmain.2.1
  have htopo : topoSort nodes = ((sortIds (keyList nodes)).foldl (fun st node_id =>
      if node_id ∈ st.visited then st
      else visitNode nodes (nodes.length + 1) node_id st)
      { sortedNodes := [], visited := [], tempVisited := [] }).sortedNodes := rfl
  refine ⟨?_, ?_, ?_, ?_⟩
  · rw [htopo]
    exact hmain.2.2.1
  · intro n hn
    rw [htopo] at hn
    exact hv4 n hn
  · rw [htopo]
    rw [hv1] at hv2
    exact List.nodup_reverse.mp hv2
  · intro x
    rw [htopo]
    constructor
    · intro hx
      apply hv3
      rw [hv1, List.mem_reverse]
      exact hx
    · intro hx
      have := hmain.2.2.2.2 x (by
        exact (List.perm_insertionSort _ (keyList nodes)).mem_iff.mpr hx)
      rw [hv1, List.mem_reverse] at this
      exact this

/-- With duplicate-free keys (always true for a real Python dict) the output
ids are a permutation of the valid-node ids. -/
theorem topoSort_perm (nodes : List NodeInfo) (h : (keyList nodes).Nodup) :
    ((topoSort nodes).map (fun n => n.nodeId)).Perm (keyList nodes) := by
  obtain ⟨_, _, hnd, hiff⟩ := topoSort_spec nodes
  exact (List.perm_ext_iff_of_nodup hnd h).mpr hiff

/-! ## First pass and fallback characterization -/

theorem dictGet_isSome_iff (d : List (String × PyVal)) (k : String) :
    (dictGet d k).isSome = true ↔ dictHasKey d k = true := by
  unfold dictGet dictHasKey
  rw [List.any_eq_true, ← List.find?_isSome]
  cases d.find? (fun p => p.1 == k) <;> simp

theorem buildNode_none {workflow : List (String × PyVal)} {id : String} {dat : PyVal}
    (h : buildNode workflow id dat = .ok none) : isValidEntry dat = false := by
  cases dat with
  | dict d =>
      simp only [buildNode] at h
      split at h
      · split at h
        · exact absurd h (by simp)
        · split at h
          · exact absurd h (by simp)
          · exact absurd h (by simp)
      · rename_i hg
        show dictHasKey d "class_type" = false
        rw [← Bool.not_eq_true, ← dictGet_isSome_iff, hg]
        simp
  | int n => rfl
  | str s => rfl
  | list l => rfl

theorem buildNode_some {workflow : List (String × PyVal)} {id : String} {dat : PyVal}
    {n : NodeInfo} (h : buildNode workflow id dat = .ok (some n)) :
    isValidEntry dat = true ∧ n.nodeId = id ∧
    ∃ d inputs, dat = .dict d ∧ getInputs d = .ok inputs ∧
      n.dependencies = collectDeps workflow inputs := by
  cases dat with
  | dict d =>
      simp only [buildNode] at h
      split at h
      · rename_i ct hg
        split at h
        · exact absurd h (by simp)
        · rename_i inputs hi
          split at h
          · exact absurd h (by simp)
          · rename_i title ht
            have hn : n = { nodeId := id, classType := ct, nodeTitle := title,
                            dependencies := collectDeps workflow inputs } := by
              have h2 := h
              simp at h2
              exact h2.symm
            refine ⟨?_, by rw [hn], d, inputs, rfl, hi, by rw [hn]⟩
            show dictHasKey d "class_type" = true
            rw [← dictGet_isSome_iff, hg]
            rfl
      · exact absurd h (by simp)
  | int m => exact absurd h (by simp [buildNode])
  | str s => exact absurd h (by simp [buildNode])
  | list l => exact absurd h (by simp [buildNode])

theorem buildNodes_ids {workflow : List (String × PyVal)} :
    ∀ {l : List (String × PyVal)} {ns : List NodeInfo},
      buildNodes workflow l = .ok ns →
      ns.map (fun n => n.nodeId)
        = (l.filter (fun kv => isValidEntry kv.2)).map (fun kv => kv.1) := by
  intro l
  induction l with
  | nil =>
      intro ns h
      have h0 : Except.ok ([] : List NodeInfo) = Except.ok ns := h
      rw [← Except.ok.inj h0]
      rfl
  | cons kv rest ih =>
      intro ns h
      obtain ⟨id, dat⟩ := kv
      simp only [buildNodes] at h
      cases hb : buildNode workflow id dat with
      | error e => rw [hb] at h; exact absurd h (by simp)
      | ok ob =>
          rw [hb] at h
          cases ob with
          | none =>
              have hval := buildNode_none hb
              rw [List.filter_cons]
              simp only [hval]
              exact ih h
          | some n =>
              obtain ⟨hval, hnid, _⟩ := buildNode_some hb
              cases hr : buildNodes workflow rest with
              | error e => rw [hr] at h; exact absurd h (by simp)
              | ok ns' =>
                  rw [hr] at h
                  have hns : n :: ns' = ns := Except.ok.inj h
                  rw [← hns, List.filter_cons]
                  simp only [hval, if_true, List.map_cons]
                  rw [hnid, ih hr]

theorem buildNodes_mem {workflow : List (String × PyVal)} :
    ∀ {l : List (String × PyVal)} {ns : List NodeInfo} {n : NodeInfo},
      buildNodes workflow l = .ok ns → n ∈ ns →
      ∃ id dat, (id, dat) ∈ l ∧ buildNode workflow id dat = .ok (some n) := by
  intro l
  induction l with
  | nil =>
      intro ns n h hn
      have h0 : Except.ok ([] : List NodeInfo) = Except.ok ns := h
      rw [← Except.ok.inj h0] at hn
      exact absurd hn (List.not_mem_nil n)
  | cons kv rest ih =>
      intro ns n h hn
      obtain ⟨id, dat⟩ := kv
      simp only [buildNodes] at h
      cases hb : buildNode workflow id dat with
      | error e => rw [hb] at h; exact absurd h (by simp)
      | ok ob =>
          rw [hb] at h
          cases ob with
          | none =>
              obtain ⟨id', dat', hmem, hbn⟩ := ih h hn
              exact ⟨id', dat', List.mem_cons_of_mem _ hmem, hbn⟩
          | some m =>
              cases hr : buildNodes workflow rest with
              | error e => rw [hr] at h; exact absurd h (by simp)
              | ok ns' =>
                  rw [hr] at h
                  rw [← Except.ok.inj h] at hn
                  rcases List.mem_cons.mp hn with rfl | hn2
                  · exact ⟨id, dat, List.mem_cons_self _ _, hb⟩
                  · obtain ⟨id', dat', hmem, hbn⟩ := ih hr hn2
                    exact ⟨id', dat', List.mem_cons_of_mem _ hmem, hbn⟩
theorem fallbackNode_none {id : String} {dat : PyVal}
    (h : fallbackNode id dat = .ok none) : isValidEntry dat = false := by
  cases dat with
  | dict d =>
      simp only [fallbackNode] at h
      split at h
      · split at h
        · exact absurd h (by simp)
        · exact absurd h (by simp)
      · rename_i hg
        show dictHasKey d "class_type" = false
        rw [← Bool.not_eq_true, ← dictGet_isSome_iff, hg]
        simp
  | int n => rfl
  | str s => rfl
  | list l => rfl

theorem fallbackNode_some {id : String} {dat : PyVal} {n : NodeInfo}
    (h : fallbackNode id dat = .ok (some n)) :
    isValidEntry dat = true ∧ n.nodeId = id ∧ n.dependencies = [] := by
  cases dat with
  | dict d =>
      simp only [fallbackNode] at h
      split at h
      · rename_i ct hg
        split at h
        · exact absurd h (by simp)
        · rename_i title ht
          have hn : n = { nodeId := id, classType := ct, nodeTitle := title,
                          dependencies := [] } := by
            have h2 := h
            simp at h2
            exact h2.symm
          refine ⟨?_, by rw [hn], by rw [hn]⟩
          show dictHasKey d "class_type" = true
          rw [← dictGet_isSome_iff, hg]
          rfl
      · exact absurd h (by simp)
  | int m => exact absurd h (by simp [fallbackNode])
  | str s => exact absurd h (by simp [fallbackNode])
  | list l => exact absurd h (by simp [fallbackNode])

theorem fallbackNodes_ids :
    ∀ {l : List (String × PyVal)} {ns : List NodeInfo},
      fallbackNodes l = .ok ns →
      ns.map (fun n => n.nodeId)
        = (l.filter (fun kv => isValidEntry kv.2)).map (fun kv => kv.1) ∧
      ∀ n ∈ ns, n.dependencies = [] := by
  intro l
  induction l with
  | nil =>
      intro ns h
      have h0 : Except.ok ([] : List NodeInfo) = Except.ok ns := h
      rw [← Except.ok.inj h0]
      exact ⟨rfl, by simp⟩
  | cons kv rest ih =>
      intro ns h
      obtain ⟨id, dat⟩ := kv
      simp only [fallbackNodes] at h
      cases hb : fallbackNode id dat with
      | error e => rw [hb] at h; exact absurd h (by simp)
      | ok ob =>
          rw [hb] at h
          cases ob with
          | none =>
              have hval := fallbackNode_none hb
              rw [List.filter_cons]
              simp only [hval]
              exact ih h
          | some n =>
              obtain ⟨hval, hnid, hdeps⟩ := fallbackNode_some hb
              cases hr : fallbackNodes rest with
              | error e => rw [hr] at h; exact absurd h (by simp)
              | ok ns' =>
                  rw [hr] at h
                  rw [← Except.ok.inj h, List.filter_cons]
                  simp only [hval, if_true, List.map_cons]
                  refine ⟨by rw [hnid, (ih hr).1], ?_⟩
                  intro m hm
                  rcases List.mem_cons.mp hm with rfl | hm2
                  · exact hdeps
                  · exact (ih hr).2 m hm2

/-- Whenever the sorter returns a list at all, its ids are a permutation of
the valid-entry ids of the workflow. -/
theorem returned_ids_perm {workflow : List (String × PyVal)} {out : List NodeInfo}
    (hnd : (workflow.map (fun kv => kv.1)).Nodup)
    (hok : get_sorted_workflow_nodes workflow = .ok out) :
    (out.map (fun n => n.nodeId)).Perm (validIds workflow) := by
  have hvsub : (validIds workflow).Nodup := by
    have hsub : ((workflow.filter (fun kv => isValidEntry kv.2)).map
        (fun kv => kv.1)).Sublist (workflow.map (fun kv => kv.1)) :=
      List.Sublist.map _ (List.filter_sublist workflow)
    exact hnd.sublist hsub
  unfold get_sorted_workflow_nodes at hok
  cases hb : buildNodes workflow workflow with
  | ok nodes =>
      rw [hb] at hok
      have hout : topoSort nodes = out := Except.ok.inj hok
      have hids : nodes.map (fun n => n.nodeId) = validIds workflow := buildNodes_ids hb
      have hkey : keyList nodes = validIds workflow := by
        rw [keyList_eq_map, hids]
      have hperm := topoSort_perm nodes (by rw [hkey]; exact hvsub)
      rw [hkey, hout] at hperm
      exact hperm
  | error e =>
      rw [hb] at hok
      have := (fallbackNodes_ids hok).1
      rw [this]
      exact List.Perm.refl _

/-! ## The dependency-collection loop as a filterMap -/

theorem collectDeps_aux (workflow : List (String × PyVal)) :
    ∀ (inputs : List (String × PyVal)) (acc : List String),
      inputs.foldl
        (fun deps kv =>
          match kv.2 with
          | .list (x :: _ :: _) =>
              let dep_node_id := pyStr x
              if dictHasKey workflow dep_node_id then deps ++ [dep_node_id] else deps
          | _ => deps)
        acc
      = acc ++ inputs.filterMap (fun kv => refDep workflow kv.2) := by
  intro inputs
  induction inputs with
  | nil => intro acc; simp
  | cons kv rest ih =>
      intro acc
      obtain ⟨k, v⟩ := kv
      rw [List.foldl_cons, List.filterMap_cons]
      cases v with
      | int n => rw [ih]; rfl
      | str s => rw [ih]; rfl
      | dict d => rw [ih]; rfl
      | list vl =>
          cases vl with
          | nil => rw [ih]; rfl
          | cons x vt =>
              cases vt with
              | nil => rw [ih]; rfl
              | cons y vr =>
                  show (rest.foldl _ (if dictHasKey workflow (pyStr x)
                      then acc ++ [pyStr x] else acc)) = _
                  by_cases hk : dictHasKey workflow (pyStr x) = true
                  · rw [if_pos hk, ih]
                    have hr : refDep workflow (.list (x :: y :: vr)) = some (pyStr x) := by
                      show (if dictHasKey workflow (pyStr x) = true
                          then some (pyStr x) else none) = some (pyStr x)
                      rw [if_pos hk]
                    rw [hr, List.append_assoc]
                    rfl
                  · rw [if_neg hk, ih]
                    have hr : refDep workflow (.list (x :: y :: vr)) = none := by
                      show (if dictHasKey workflow (pyStr x) = true
                          then some (pyStr x) else none) = none
                      rw [if_neg hk]
                    rw [hr]

theorem collectDeps_eq_filterMap (workflow : List (String × PyVal))
    (inputs : List (String × PyVal)) :
    collectDeps workflow inputs
      = inputs.filterMap (fun kv => refDep workflow kv.2) := by
  unfold collectDeps
  rw [collectDeps_aux]
  rfl

/-! ## `list.index` characterization for the progress filter -/

theorem indexOf?_of_not_mem {a : String} {l : List String} (h : a ∉ l) :
    l.indexOf? a = none := by
  rw [List.indexOf?_eq_none_iff]
  intro x hx hbe
  exact h ((by simpa using hbe : x = a) ▸ hx)

theorem indexOf?_first {a : String} :
    ∀ (l : List String) (p : Nat) (hp : p < l.length),
      l.get ⟨p, hp⟩ = a → a ∉ l.take p → l.indexOf? a = some p := by
  intro l
  induction l with
  | nil => intro p hp; exact absurd hp (by simp)
  | cons x xs ih =>
      intro p hp hget htake
      cases p with
      | zero =>
          rw [List.indexOf?_cons]
          have hx : x = a := hget
          rw [if_pos (by simpa using hx)]
      | succ p =>
          rw [List.indexOf?_cons]
          have hna : ¬(x == a) = true := by
            intro hbe
            apply htake
            rw [List.take_succ_cons]
            exact (by simpa using hbe : x = a) ▸ List.mem_cons_self x _
          rw [if_neg hna]
          have htake' : a ∉ xs.take p := by
            intro hc
            exact htake (by rw [List.take_succ_cons]; exact List.mem_cons_of_mem x hc)
          rw [ih p (by simpa using hp) hget htake']
          rfl

/-! ## From the ordering invariant to explicit positions -/

theorem ordered_before {nodes out : List NodeInfo} {a b : String}
    (hord : OrderedOK nodes out)
    (hb : b ∈ out.map (fun n => n.nodeId))
    (hedge : DepEdge nodes a b) (hak : a ∈ keyList nodes)
    (hnr : ¬ Reach nodes b a) :
    ∃ i j, i < j ∧ ∃ hj : j < out.length, ∃ hi : i < out.length,
      (out.get ⟨i, hi⟩).nodeId = a ∧ (out.get ⟨j, hj⟩).nodeId = b := by
  obtain ⟨x, hx, hxb⟩ := List.mem_map.mp hb
  obtain ⟨l1, l2, hsplit⟩ := List.append_of_mem hx
  subst hsplit
  have hina : a ∈ l1.map (fun n => n.nodeId) := by
    apply hord l1 x l2 rfl a
    · rw [hxb]; exact hedge
    · exact hak
    · rw [hxb]; exact hnr
  obtain ⟨y, hy, hya⟩ := List.mem_map.mp hina
  obtain ⟨i0, hgy⟩ := List.mem_iff_get.mp hy
  have hlen : (l1 ++ x :: l2).length = l1.length + l2.length + 1 := by
    simp
    omega
  have hi0 : (i0 : Nat) < l1.length := i0.isLt
  refine ⟨i0, l1.length, hi0, by omega, by omega, ?_, ?_⟩
  · have hg : (l1 ++ x :: l2).get ⟨i0, by omega⟩ = l1.get ⟨i0, hi0⟩ := by
      rw [List.get_eq_getElem, List.get_eq_getElem, List.getElem_append_left hi0]
    rw [hg]
    have : l1.get ⟨i0, hi0⟩ = y := by
      rw [← hgy]
    rw [this, hya]
  · have hg : (l1 ++ x :: l2).get ⟨l1.length, by omega⟩
        = (x :: l2).get ⟨0, by simp⟩ := by
      rw [List.get_eq_getElem, List.get_eq_getElem,
        List.getElem_append_right (Nat.le_refl l1.length)]
      simp
    rw [hg]
    exact hxb

/-- A node with no outgoing dependency edge reaches only itself. -/
theorem reach_eq_of_no_succ {nodes : List NodeInfo} {a : String}
    (h : ∀ c, ¬ DepEdge nodes a c) : ∀ b, Reach nodes a b → a = b := by
  intro b hr
  rcases Relation.ReflTransGen.cases_head hr with he | ⟨c, hac, _⟩
  · exact he
  · exact absurd hac (h c)

/-! ## Claim theorems -/

/-- C7: on the five-node mock workflow ("1" CLIPTextEncode needs "2",
"2" CheckpointLoader needs nothing, "3" KSampler needs "2","1","4",
"4" CLIPTextEncode needs "2", "5" VAEDecode needs "3","2"),
`get_sorted_workflow_nodes` returns the nodes in id order 2, 1, 4, 3, 5. -/
theorem C7_mock_order :
    Except.map (fun (l : List NodeInfo) => l.map (fun n => n.nodeId))
      (get_sorted_workflow_nodes MOCK_WORKFLOW) = .ok ["2", "1", "4", "3", "5"] := rfl

/-- C9: on the two-node cyclic graph ("1" needs "2" and "2" needs "1"),
`get_sorted_workflow_nodes` returns exactly the order ["2", "1"]: the visit
starts at the smallest id "1", descends into "2", skips the back edge and
emits "2" before "1". -/
theorem C9_cycle_order :
    get_sorted_workflow_nodes cyclicWf = .ok cyclicOut ∧
    cyclicOut.map (fun n => n.nodeId) = ["2", "1"] := ⟨rfl, rfl⟩

/-- C3: the claim says no exception ever propagates and that on any failure
every valid node is returned in insertion order with empty dependencies.
The code contradicts this intent: on `c3Wf` (one valid node whose `_meta`
is the string "bad") the try-block raises while computing the title, and
the fallback handler evaluates the same expression and raises again, so the
call produces an error instead of the one-node fallback list. -/
theorem C3_fallback_raises :
    get_sorted_workflow_nodes c3Wf = .error () ∧ validIds c3Wf = ["1"] := ⟨rfl, rfl⟩

/-- C2, counterexample: on `metaWf` the function raises (both the try-block
and the fallback evaluate `.get` on the non-dict `_meta`), so for this graph
it does not return a sequence at all, although the graph has exactly one
valid entry. -/
theorem C2_counterexample :
    get_sorted_workflow_nodes metaWf = .error () ∧ validIds metaWf = ["1"] := ⟨rfl, rfl⟩

/-- C2, amended: whenever `get_sorted_workflow_nodes` returns a sequence,
that sequence contains exactly one `SortedNode` per valid entry of the
graph and nothing else — no duplicates, no omissions, invalid entries
silently excluded. -/
theorem C2_returned_perm (workflow : List (String × PyVal)) (out : List NodeInfo)
    (hnd : (workflow.map (fun kv => kv.1)).Nodup)
    (hok : get_sorted_workflow_nodes workflow = .ok out) :
    (out.map (fun n => n.nodeId)).Perm (validIds workflow) :=
  returned_ids_perm hnd hok

/-- Witness for C2 on the concrete two-node workflow `witWf`. -/
theorem C2_returned_perm_witness :
    ((witWf.map (fun kv => kv.1)).Nodup ∧
      get_sorted_workflow_nodes witWf = .ok witOut) ∧
    (witOut.map (fun n => n.nodeId)).Perm (validIds witWf) :=
  ⟨⟨by decide, rfl⟩, C2_returned_perm witWf witOut (by decide) rfl⟩

/-- The cycle edge "2" → "1" of `cyclicWf` (node "1" depends on "2"). -/
theorem cyclic_edge_21 : wfEdge cyclicWf "2" "1" := by
  refine ⟨[("class_type", .str "A"), ("inputs", .dict [("x", .list [.str "2", .int 0])])],
    [("x", .list [.str "2", .int 0])], ?_, rfl, rfl, by decide⟩
  exact List.mem_cons_self _ _

/-- The cycle edge "1" → "2" of `cyclicWf` (node "2" depends on "1"). -/
theorem cyclic_edge_12 : wfEdge cyclicWf "1" "2" := by
  refine ⟨[("class_type", .str "B"), ("inputs", .dict [("y", .list [.str "1", .int 0])])],
    [("y", .list [.str "1", .int 0])], ?_, rfl, rfl, by decide⟩
  exact List.mem_cons_of_mem _ (List.mem_cons_self _ _)

/-- C6, counterexample: `c6Wf` contains the dependency cycle "1" ↔ "2" but
also a non-dict `_meta` on node "1", so the call raises (returns nothing)
instead of returning every valid node exactly once. -/
theorem C6_counterexample :
    wfEdge c6Wf "2" "1" ∧ wfEdge c6Wf "1" "2" ∧
    get_sorted_workflow_nodes c6Wf = .error () ∧ validIds c6Wf = ["1", "2"] := by
  refine ⟨?_, ?_, rfl, rfl⟩
  · refine ⟨[("class_type", .str "A"), ("inputs", .dict [("x", .list [.str "2", .int 0])]),
      ("_meta", .int 7)], [("x", .list [.str "2", .int 0])], ?_, rfl, rfl, by decide⟩
    exact List.mem_cons_self _ _
  · refine ⟨[("class_type", .str "B"), ("inputs", .dict [("y", .list [.str "1", .int 0])])],
      [("y", .list [.str "1", .int 0])], ?_, rfl, rfl, by decide⟩
    exact List.mem_cons_of_mem _ (List.mem_cons_self _ _)

/-- C6, amended: for every graph containing a dependency cycle, whenever
`get_sorted_workflow_nodes` returns a sequence it contains every valid node
exactly once (the back edge is skipped, the sort does not fail). -/
theorem C6_cycle_complete (workflow : List (String × PyVal)) (out : List NodeInfo)
    (hnd : (workflow.map (fun kv => kv.1)).Nodup)
    (_hcyc : ∃ a b, wfEdge workflow a b ∧
      Relation.ReflTransGen (wfEdge workflow) b a)
    (hok : get_sorted_workflow_nodes workflow = .ok out) :
    (out.map (fun n => n.nodeId)).Perm (validIds workflow) :=
  returned_ids_perm hnd hok

/-- Witness for C6 on the concrete cyclic workflow `cyclicWf`. -/
theorem C6_cycle_complete_witness :
    ((cyclicWf.map (fun kv => kv.1)).Nodup ∧
      (∃ a b, wfEdge cyclicWf a b ∧ Relation.ReflTransGen (wfEdge cyclicWf) b a) ∧
      get_sorted_workflow_nodes cyclicWf = .ok cyclicOut) ∧
    (cyclicOut.map (fun n => n.nodeId)).Perm (validIds cyclicWf) :=
  ⟨⟨by decide, ⟨"2", "1", cyclic_edge_21, Relation.ReflTransGen.single cyclic_edge_12⟩, rfl⟩,
   C6_cycle_complete cyclicWf cyclicOut (by decide)
     ⟨"2", "1", cyclic_edge_21, Relation.ReflTransGen.single cyclic_edge_12⟩ rfl⟩

/-- The only node of `c1Nodes` ("2") has no outgoing dependency edge. -/
theorem c1_no_succ : ∀ c, ¬ DepEdge c1Nodes "2" c := by
  intro c hd
  obtain ⟨l, hmem, hin⟩ := mem_lookupDeps hd
  have h2 : (c, l) ∈ [(("2" : String), (["1"] : List String))] := hmem
  have h3 := List.mem_singleton.mp h2
  have hl : l = ["1"] := congrArg Prod.snd h3
  rw [hl] at hin
  exact absurd hin (by decide)

/-- No dependency path leads from "2" back to "1" in `c1Nodes`. -/
theorem c1_not_reach : ¬ Reach c1Nodes "2" "1" := by
  intro h
  exact absurd (reach_eq_of_no_succ c1_no_succ "1" h) (by decide)

/-- C1, counterexample: in `c1Wf` the entry "1" is invalid (a bare string)
but is a key of the graph referenced by the valid node "2", so the claimed
edge "1" → "2" exists and lies on no cycle; yet "1" never appears in the
output (which is just ["2"]), so "1" does not come strictly before "2". -/
theorem C1_counterexample :
    buildNodes c1Wf c1Wf = .ok c1Nodes ∧
    get_sorted_workflow_nodes c1Wf = .ok c1Nodes ∧
    DepEdge c1Nodes "1" "2" ∧ ("1" ∈ c1Wf.map (fun kv => kv.1)) ∧
    ¬ Reach c1Nodes "2" "1" ∧
    ¬ (∃ i j, i < j ∧ ∃ hj : j < c1Nodes.length, ∃ hi : i < c1Nodes.length,
        (c1Nodes.get ⟨i, hi⟩).nodeId = "1" ∧ (c1Nodes.get ⟨j, hj⟩).nodeId = "2") := by
  refine ⟨rfl, rfl, by decide, by decide, c1_not_reach, ?_⟩
  rintro ⟨i, j, hij, hj, -⟩
  have hlen : c1Nodes.length = 1 := rfl
  omega

/-- C1, amended: for every graph on which the first pass succeeds (no
exception fallback) and every dependency edge `a → b` not lying on a cycle
whose source `a` is itself a valid node, `a` appears strictly before `b` in
the sequence returned by `get_sorted_workflow_nodes`. -/
theorem C1_acyclic_edge_order (workflow : List (String × PyVal)) (nodes : List NodeInfo)
    (_hnd : (workflow.map (fun kv => kv.1)).Nodup)
    (hok : buildNodes workflow workflow = .ok nodes)
    (a b : String) (hedge : DepEdge nodes a b)
    (ha : a ∈ keyList nodes) (hnr : ¬ Reach nodes b a) :
    ∃ out, get_sorted_workflow_nodes workflow = .ok out ∧
      ∃ i j, i < j ∧ ∃ hj : j < out.length, ∃ hi : i < out.length,
        (out.get ⟨i, hi⟩).nodeId = a ∧ (out.get ⟨j, hj⟩).nodeId = b := by
  refine ⟨topoSort nodes, ?_, ?_⟩
  · unfold get_sorted_workflow_nodes
    rw [hok]
  · obtain ⟨hord, _, _, hiff⟩ := topoSort_spec nodes
    have hbk : b ∈ keyList nodes := lookupDeps_key hedge
    have hbmem : b ∈ (topoSort nodes).map (fun n => n.nodeId) := (hiff b).mpr hbk
    exact ordered_before hord hbmem hedge ha hnr

/-- In `witNodes`, node "1" has no outgoing dependency edge. -/
theorem wit_no_succ : ∀ c, ¬ DepEdge witNodes "1" c := by
  intro c hd
  obtain ⟨l, hmem, hin⟩ := mem_lookupDeps hd
  have h2 : (c, l) ∈ [(("1" : String), (["2"] : List String)), ("2", [])] := hmem
  rcases List.mem_cons.mp h2 with h3 | h3
  · have hl : l = ["2"] := congrArg Prod.snd h3
    rw [hl] at hin
    exact absurd hin (by decide)
  · have h4 := List.mem_singleton.mp h3
    have hl : l = [] := congrArg Prod.snd h4
    rw [hl] at hin
    exact absurd hin (List.not_mem_nil _)

/-- No dependency path leads from "1" back to "2" in `witNodes`. -/
theorem wit_not_reach : ¬ Reach witNodes "1" "2" := by
  intro h
  exact absurd (reach_eq_of_no_succ wit_no_succ "2" h) (by decide)

/-- Witness for C1 on the acyclic workflow `witWf` (edge "2" → "1"). -/
theorem C1_acyclic_edge_order_witness :
    ((witWf.map (fun kv => kv.1)).Nodup ∧ buildNodes witWf witWf = .ok witNodes ∧
      DepEdge witNodes "2" "1" ∧ "2" ∈ keyList witNodes ∧ ¬ Reach witNodes "1" "2") ∧
    (∃ out, get_sorted_workflow_nodes witWf = .ok out ∧
      ∃ i j, i < j ∧ ∃ hj : j < out.length, ∃ hi : i < out.length,
        (out.get ⟨i, hi⟩).nodeId = "2" ∧ (out.get ⟨j, hj⟩).nodeId = "1") :=
  ⟨⟨by decide, rfl, by decide, by decide, wit_not_reach⟩,
   C1_acyclic_edge_order witWf witNodes (by decide) rfl "2" "1" (by decide) (by decide)
     wit_not_reach⟩

/-- `dupNode1` is a member of the sorter's output on `dupNodes`. -/
theorem dupNode1_mem : dupNode1 ∈ topoSort dupNodes := by
  have h : topoSort dupNodes
      = [{ nodeId := "2", classType := .str "B", nodeTitle := .str "B",
           dependencies := [] }, dupNode1] := rfl
  rw [h]
  exact List.mem_cons_of_mem _ (List.mem_cons_self _ _)

/-- C4, counterexample: in `dupWf` node "1" references node "2" through two
different inputs, and its `dependencies` list in the output is `["2", "2"]`
— the same source id occurs twice, so the list is not distinct. -/
theorem C4_counterexample :
    (∃ out, get_sorted_workflow_nodes dupWf = .ok out ∧ dupNode1 ∈ out) ∧
    dupNode1.dependencies = ["2", "2"] ∧ ¬ dupNode1.dependencies.Nodup := by
  refine ⟨⟨[{ nodeId := "2", classType := .str "B", nodeTitle := .str "B",
              dependencies := [] }, dupNode1], rfl, ?_⟩, rfl, by decide⟩
  exact List.mem_cons_of_mem _ (List.mem_cons_self _ _)

/-- C4, amended: in the non-fallback output every node's `dependencies`
list is exactly one entry per reference-shaped input value whose
stringified source is a key of the graph, in input order — with repetitions
when several inputs name the same source. -/
theorem C4_dependencies_shape (workflow : List (String × PyVal)) (nodes : List NodeInfo)
    (hok : buildNodes workflow workflow = .ok nodes)
    (n : NodeInfo) (hn : n ∈ topoSort nodes) :
    ∃ d inputs, (n.nodeId, PyVal.dict d) ∈ workflow ∧ getInputs d = .ok inputs ∧
      n.dependencies = inputs.filterMap (fun kv => refDep workflow kv.2) := by
  have hmem : n ∈ nodes := (topoSort_spec nodes).2.1 n hn
  obtain ⟨id, dat, hin, hbn⟩ := buildNodes_mem hok hmem
  obtain ⟨_, hnid, d, inputs, hdat, hinp, hdeps⟩ := buildNode_some hbn
  subst hdat
  refine ⟨d, inputs, ?_, hinp, ?_⟩
  · rw [hnid]
    exact hin
  · rw [hdeps, collectDeps_eq_filterMap]

/-- Witness for C4 on `dupWf` and its duplicated-dependency node. -/
theorem C4_dependencies_shape_witness :
    (buildNodes dupWf dupWf = .ok dupNodes ∧ dupNode1 ∈ topoSort dupNodes) ∧
    (∃ d inputs, (dupNode1.nodeId, PyVal.dict d) ∈ dupWf ∧ getInputs d = .ok inputs ∧
      dupNode1.dependencies = inputs.filterMap (fun kv => refDep dupWf kv.2)) :=
  ⟨⟨rfl, dupNode1_mem⟩, C4_dependencies_shape dupWf dupNodes rfl dupNode1 dupNode1_mem⟩

/-- C5, counterexample: in `c5Wf` the only input value of node "1" is the
THREE-element list `["2", 0, 0]` — not a two-element `(string, int)`
reference pair — yet the code records the dependency "2" for it, so "is a
two-element reference pair" is not the exact contribution condition. -/
theorem C5_counterexample :
    collectDeps c5Wf c5Inputs = ["2"] ∧
    c5Inputs.filterMap (fun kv => specRefPair c5Wf kv.2) = [] := ⟨rfl, rfl⟩

/-- C5, amended: an input value contributes a dependency exactly when it is
a Python list of length at least two whose FIRST element, coerced with
`str()`, is a key of the graph; the contributed id is that coerced string,
and dangling references contribute nothing. -/
theorem C5_contribution_rule (workflow : List (String × PyVal))
    (inputs : List (String × PyVal)) :
    collectDeps workflow inputs = inputs.filterMap (fun kv => refDep workflow kv.2) ∧
    ∀ v dep, refDep workflow v = some dep ↔
      ∃ x rest, v = PyVal.list (x :: rest) ∧ rest ≠ [] ∧ pyStr x = dep ∧
        dictHasKey workflow dep = true := by
  refine ⟨collectDeps_eq_filterMap workflow inputs, ?_⟩
  intro v dep
  constructor
  · intro h
    cases v with
    | int n => exact absurd h (by simp [refDep])
    | str s => exact absurd h (by simp [refDep])
    | dict d => exact absurd h (by simp [refDep])
    | list vl =>
        cases vl with
        | nil => exact absurd h (by simp [refDep])
        | cons x vt =>
            cases vt with
            | nil => exact absurd h (by simp [refDep])
            | cons y vr =>
                have h2 : (if dictHasKey workflow (pyStr x) = true
                    then some (pyStr x) else none) = some dep := h
                by_cases hk : dictHasKey workflow (pyStr x) = true
                · rw [if_pos hk] at h2
                  have hd : pyStr x = dep := Option.some.inj h2
                  exact ⟨x, y :: vr, rfl, by simp, hd, hd ▸ hk⟩
                · rw [if_neg hk] at h2
                  exact absurd h2 (by simp)
  · rintro ⟨x, rest, rfl, hne, rfl, hk⟩
    cases rest with
    | nil => exact absurd rfl hne
    | cons y vr =>
        show (if dictHasKey workflow (pyStr x) = true
            then some (pyStr x) else none) = some (pyStr x)
        rw [if_pos hk]

/-- C8: `should_show_progress` returns `p >= currentIndex` when the node id
first occurs at position `p` of the order, and `true` when the id does not
occur at all (unknown nodes are shown — fail open). -/
theorem C8_progress_filter (order : List String) (node_id : String) (idx : Int) :
    (∀ (p : Nat) (hp : p < order.length), order.get ⟨p, hp⟩ = node_id →
      node_id ∉ order.take p →
      should_show_progress node_id order idx = decide ((p : Int) ≥ idx)) ∧
    (node_id ∉ order → should_show_progress node_id order idx = true) := by
  constructor
  · intro p hp hget htake
    unfold should_show_progress
    rw [indexOf?_first order p hp hget htake]
  · intro h
    unfold should_show_progress
    rw [indexOf?_of_not_mem h]

/-- Witness for C8 on the concrete scenario of the test file:
order = ["1","4","3","11"], current index 2. -/
theorem C8_progress_filter_witness :
    should_show_progress "3" ["1", "4", "3", "11"] 2 = true ∧
    should_show_progress "unknown" ["1", "4", "3", "11"] 2 = true := by
  constructor
  · have h := (C8_progress_filter ["1", "4", "3", "11"] "3" 2).1 2 (by decide) rfl (by decide)
    rw [h]
    rfl
  · exact (C8_progress_filter ["1", "4", "3", "11"] "unknown" 2).2 (by decide)

/-- C10: a reference whose first element is not a string — such as the
Python list `[2, 0]` — is coerced with `str()` before the key lookup, so it
contributes a dependency on node "2" whenever "2" is a key of the graph. -/
theorem C10_int_reference (workflow : List (String × PyVal))
    (inputs : List (String × PyVal)) (k : String) (m : Int) (rest : List PyVal)
    (hmem : (k, PyVal.list (PyVal.int m :: rest)) ∈ inputs)
    (hrest : rest ≠ [])
    (hkey : dictHasKey workflow (toString m) = true) :
    toString m ∈ collectDeps workflow inputs := by
  rw [collectDeps_eq_filterMap]
  apply List.mem_filterMap.mpr
  refine ⟨(k, PyVal.list (PyVal.int m :: rest)), hmem, ?_⟩
  cases rest with
  | nil => exact absurd rfl hrest
  | cons y vr =>
      show (if dictHasKey workflow (pyStr (.int m)) = true
          then some (pyStr (.int m)) else none) = some (toString m)
      have hps : pyStr (.int m) = toString m := rfl
      rw [hps, if_pos hkey]

/-- Witness for C10 on `c10Wf`: the input `[2, 0]` of node "1" yields the
dependency "2". -/
theorem C10_int_reference_witness :
    ((("x" : String), PyVal.list [PyVal.int 2, PyVal.int 0]) ∈ c10Inputs ∧
      ([PyVal.int 0] : List PyVal) ≠ [] ∧
      dictHasKey c10Wf (toString (2 : Int)) = true) ∧
    toString (2 : Int) ∈ collectDeps c10Wf c10Inputs :=
  ⟨⟨List.mem_cons_self _ _, by simp, by decide⟩,
   C10_int_reference c10Wf c10Inputs "x" 2 [PyVal.int 0]
     (List.mem_cons_self _ _) (by simp) (by decide)⟩
